import Mathlib

set_option maxRecDepth 16000

/-
Formal model of `src/quantile.c` (the `quantile` PostgreSQL extension).

The C file keeps, per aggregation group, a struct with
  * `quantiles` / `nquantiles` : the parsed array of requested probabilities,
  * `elements` / `nelements`   : a growable backing buffer and its capacity,
  * `next`                     : the number of valid entries in `elements`.
Append functions (`quantile_append_double`, `quantile_append_double_array`,
and the int32/int64/numeric twins) lazily create the struct on the first
call, skip NULL observations, grow the buffer by `SLICE_SIZE = 1024`
entries when full, and write the new value at position `next`.
Finalize functions (`quantile_double`, `quantile_double_array`, ...) qsort
the first `next` entries and read the element at the nearest-rank index
`(int)ceil(next * q) - 1`, with per-variant boundary handling.

Modelling conventions:
  * a C pointer-plus-length pair becomes a Lean list: `quantiles` is a
    `List ℚ` whose length plays the role of `nquantiles`; `elements` is a
    list whose length is the capacity `nelements`, positions `next ≤ i`
    holding the filler `default` (palloc memory is modelled by an
    arbitrary fixed value, the code never relies on its content);
  * C doubles are modelled by `ℚ` (exact arithmetic; the quantile code
    performs only comparisons, one multiplication and one ceil on them);
    `int32` elements are modelled by `Int` (they are only compared);
  * `qsort` with the ascending comparators `double_comparator` /
    `int32_comparator` is modelled by `List.insertionSort (· ≤ ·)`:
    under a linear order every sorting algorithm yields the same list;
  * an out-of-bounds element read (undefined behaviour in C) is made
    observable: `FinalizeResult.oobAccess` records the offending index,
    `FinalizeResult.noResult` models returning SQL NULL;
  * `elog(ERROR, ...)` (a non-local abort) is modelled by
    `CallResult.fatal` carrying the message; `AggCheckCallContext` is
    modelled by a boolean `inAggContext` input.
-/

namespace Quantile

def SLICE_SIZE : Nat := 1024

/-- The per-group state, one C struct (`struct_double`, `struct_int32`, ...)
per element domain.  `quantiles.length` plays the role of the C field
`nquantiles` and `elements.length` the role of the capacity `nelements`. -/
structure Struct (α : Type) where
  quantiles : List ℚ
  elements : List α
  next : Nat
deriving DecidableEq

abbrev struct_double := Struct ℚ

abbrev struct_int32 := Struct Int

/-- Result of a finalize call: SQL NULL, a value, or an out-of-bounds
read of `elements` (undefined behaviour in the C code) at the recorded
index. -/
inductive FinalizeResult (α : Type) where
  | noResult : FinalizeResult α
  | value : α → FinalizeResult α
  | oobAccess : Int → FinalizeResult α
deriving DecidableEq

/-- Result of a call through the host boundary: `fatal` models
`elog(ERROR, ...)`, which aborts the call before any state is created or
modified. -/
inductive CallResult (α : Type) where
  | fatal : String → CallResult α
  | ok : α → CallResult α
deriving DecidableEq

/-- The freshly created group state: a `SLICE_SIZE`-element buffer with
no valid entries, holding the given quantile list (the `PG_ARGISNULL(0)`
branch of the append functions). -/
def freshState {α : Type} [Inhabited α] (qs : List ℚ) : Struct α :=
  { quantiles := qs
    elements := List.replicate SLICE_SIZE default
    next := 0 }

/-- The shared body of every append function: ignore a NULL observation;
otherwise grow the buffer by one slab when `next > nelements - 1` (int
arithmetic) and write the element at position `next`.  `repalloc`
preserves the existing entries and the fresh tail is uninitialised
(filler `default`). -/
def appendElem {α : Type} [Inhabited α] (data : Struct α) (observation : Option α) :
    Struct α :=
  match observation with
  | none => data
  | some element =>
    let grown :=
      if ((data.elements.length : Int) - 1 < (data.next : Int)) then
        { data with elements := data.elements ++ List.replicate SLICE_SIZE default }
      else data
    { grown with elements := grown.elements.set grown.next element, next := grown.next + 1 }

/-- `quantile_append_double`: scalar-request append; on creation the
quantile list is the single probability in argument 2. -/
def quantile_append_double (state : Option struct_double) (observation : Option ℚ)
    (requestSpec : ℚ) : struct_double :=
  appendElem (state.getD (freshState [requestSpec])) observation

/-- `quantile_append_double_array`: array-request append; on creation the
quantile list is the parsed probabilities array.  On later calls the
request argument is not examined. -/
def quantile_append_double_array (state : Option struct_double) (observation : Option ℚ)
    (requestSpec : List ℚ) : struct_double :=
  appendElem (state.getD (freshState requestSpec)) observation

/-- `quantile_append_int32`: scalar-request append in the int32 domain. -/
def quantile_append_int32 (state : Option struct_int32) (observation : Option Int)
    (requestSpec : ℚ) : struct_int32 :=
  appendElem (state.getD (freshState [requestSpec])) observation

/-- The valid entries `elements[0 .. next)` sorted ascending, i.e. the
effect of `qsort(data->elements, data->next, ...)` on the valid prefix. -/
def sortedElems {α : Type} [LinearOrder α] (d : Struct α) : List α :=
  (d.elements.take d.next).insertionSort (· ≤ ·)

/-- The whole buffer after the `qsort` call: the sorted valid prefix
followed by the untouched tail of the allocation. -/
def sortBuf {α : Type} [LinearOrder α] (d : Struct α) : List α :=
  sortedElems d ++ d.elements.drop d.next

/-- Reading `elements[idx]` after the sort: indices inside the
allocation yield the stored value, any other index is an out-of-bounds
access (undefined behaviour in C). -/
def bufRead {α : Type} [Inhabited α] (buf : List α) (idx : Int) : FinalizeResult α :=
  if 0 ≤ idx ∧ idx.toNat < buf.length then .value (buf.getD idx.toNat default)
  else .oobAccess idx

/-- The nearest-rank index computed by the array finalize loop for one
probability: `ceil(next * q) - 1` for `0 < q < 1`, clamped to `0` for
`q ≤ 0` and to `next - 1` for `q ≥ 1`. -/
def rankIdx (n : Nat) (q : ℚ) : Int :=
  if 0 < q ∧ q < 1 then ((n : ℚ) * q).ceil - 1
  else if q ≤ 0 then 0
  else (n : Int) - 1

/-- Reading a list of indices from the sorted buffer; the loop aborts at
the first out-of-bounds read. -/
def collectReads {α : Type} [Inhabited α] (buf : List α) : List Int → FinalizeResult (List α)
  | [] => .value []
  | i :: rest =>
    match bufRead buf i, collectReads buf rest with
    | .value v, .value vs => .value (v :: vs)
    | .oobAccess j, _ => .oobAccess j
    | .noResult, _ => .noResult
    | .value _, .oobAccess j => .oobAccess j
    | .value _, .noResult => .noResult

/-- `quantile_double`: scalar finalize in the double domain.  NULL state
returns NULL; otherwise the index is `ceil(next * q) - 1` when
`0 < q < 1` and `0` in every other case (note: also for `q ≥ 1`). -/
def quantile_double (state : Option struct_double) : FinalizeResult ℚ :=
  match state with
  | none => .noResult
  | some data =>
    let q := data.quantiles.getD 0 0
    let idx : Int := if 0 < q ∧ q < 1 then ((data.next : ℚ) * q).ceil - 1 else 0
    bufRead (sortBuf data) idx

/-- `quantile_int32`: scalar finalize in the int32 domain.  Unlike the
double variant its guard is only `q > 0`, so the ceil formula is applied
to every `q > 0`, including `q ≥ 1`. -/
def quantile_int32 (state : Option struct_int32) : FinalizeResult Int :=
  match state with
  | none => .noResult
  | some data =>
    let q := data.quantiles.getD 0 0
    let idx : Int := if 0 < q then ((data.next : ℚ) * q).ceil - 1 else 0
    bufRead (sortBuf data) idx

/-- The array finalize body, identical in every domain: sort the valid
prefix, then emit `elements[rankIdx]` for each stored probability in
request order. -/
def quantile_array_gen {α : Type} [LinearOrder α] [Inhabited α]
    (state : Option (Struct α)) : FinalizeResult (List α) :=
  match state with
  | none => .noResult
  | some data => collectReads (sortBuf data) (data.quantiles.map (rankIdx data.next))

/-- `quantile_double_array`: array finalize in the double domain. -/
def quantile_double_array (state : Option struct_double) : FinalizeResult (List ℚ) :=
  quantile_array_gen state

/-- `quantile_int32_array`: array finalize in the int32 domain. -/
def quantile_int32_array (state : Option struct_int32) : FinalizeResult (List Int) :=
  quantile_array_gen state

/-- A host array value as far as `array_to_double` inspects it: its
number of dimensions and its element data. -/
structure ArrayInput where
  ndims : Nat
  items : List ℚ
deriving DecidableEq

/-- `array_to_double`: parsing the probabilities array.  A
non-single-dimensional array is a fatal error; an empty array yields
length `0` (the C code returns NULL with `*len = 0`, modelled by the
empty list). -/
def array_to_double (v : ArrayInput) : Except String (List ℚ) :=
  if v.ndims ≠ 1 then
    .error "error, array_to_double expects a single-dimensional array"
  else if v.items.length = 0 then
    .ok []
  else
    .ok v.items

/-- `quantile_append_double` behind `GET_AGG_CONTEXT`: outside an
aggregate call context the function aborts with `elog(ERROR, ...)`
before touching any state. -/
def quantile_append_double_checked (inAggContext : Bool) (state : Option struct_double)
    (observation : Option ℚ) (requestSpec : ℚ) : CallResult struct_double :=
  if inAggContext then
    .ok (quantile_append_double state observation requestSpec)
  else
    .fatal "quantile_append_double called in non-aggregate context"

/-- `quantile_append_double_array` behind `GET_AGG_CONTEXT`, with the
probabilities array parsed by `array_to_double` only on the creating
call (`PG_ARGISNULL(0)`); its `elog(ERROR, ...)` aborts creation. -/
def quantile_append_double_array_checked (inAggContext : Bool) (state : Option struct_double)
    (observation : Option ℚ) (requestSpec : ArrayInput) : CallResult struct_double :=
  if inAggContext then
    match state with
    | none =>
      match array_to_double requestSpec with
      | .error msg => .fatal msg
      | .ok qs => .ok (appendElem (freshState qs) observation)
    | some data => .ok (appendElem data observation)
  else
    .fatal "quantile_append_double_array called in non-aggregate context"

/-- `quantile_double` behind `CHECK_AGG_CONTEXT`. -/
def quantile_double_checked (inAggContext : Bool) (state : Option struct_double) :
    CallResult (FinalizeResult ℚ) :=
  if inAggContext then
    .ok (quantile_double state)
  else
    .fatal "quantile_double called in non-aggregate context"

/-- `quantile_double_array` behind `CHECK_AGG_CONTEXT`. -/
def quantile_double_array_checked (inAggContext : Bool) (state : Option struct_double) :
    CallResult (FinalizeResult (List ℚ)) :=
  if inAggContext then
    .ok (quantile_double_array state)
  else
    .fatal "quantile_double_array called in non-aggregate context"

/-- Well-formedness of a group state: the count of valid entries never
exceeds the capacity, and the capacity is at least the initial slab
(both hold for every state the append functions can build). -/
def Inv {α : Type} (d : Struct α) : Prop :=
  d.next ≤ d.elements.length ∧ SLICE_SIZE ≤ d.elements.length

/-- Capacity of the buffer after `n` successful (non-NULL) appends:
starts at one slab and gains one slab each time the buffer is full. -/
def capAfter : Nat → Nat
  | 0 => SLICE_SIZE
  | n + 1 => if capAfter n ≤ n then capAfter n + SLICE_SIZE else capAfter n

/-- The canonical state reached after appending exactly the values
`vals` (in this order) under quantile list `qs`: the buffer holds `vals`
followed by untouched filler up to the capacity `capAfter vals.length`. -/
def canonical {α : Type} [Inhabited α] (qs : List ℚ) (vals : List α) : Struct α :=
  { quantiles := qs
    next := vals.length
    elements := vals ++ List.replicate (capAfter vals.length - vals.length) default }

/-- One aggregate transition of the scalar double aggregate: the host
passes the previous state (NULL on the first call) and receives the new
state. -/
def stepDouble (q : ℚ) (s : Option struct_double) (o : Option ℚ) : Option struct_double :=
  some (quantile_append_double s o q)

/-- Running a whole group through the scalar double aggregate: the state
starts absent and every row performs one append call. -/
def runAppends (obs : List (Option ℚ)) (q : ℚ) : Option struct_double :=
  obs.foldl (stepDouble q) none

/-- One aggregate transition of the array double aggregate. -/
def stepDoubleArray (qs : List ℚ) (s : Option struct_double) (o : Option ℚ) :
    Option struct_double :=
  some (quantile_append_double_array s o qs)

/-- Running a whole group through the array double aggregate. -/
def runAppendsArray (obs : List (Option ℚ)) (qs : List ℚ) : Option struct_double :=
  obs.foldl (stepDoubleArray qs) none

instance {α : Type} [DecidableEq α] (d : Struct α) : Decidable (Inv d) :=
  inferInstanceAs (Decidable (_ ∧ _))

/-- A concrete group state used by witnesses: the scalar double aggregate
fed the rows `10, 40, 20, 30` with requested probability `1/2`. -/
def exampleState : struct_double :=
  quantile_append_double (some (quantile_append_double (some (quantile_append_double
    (some (quantile_append_double none (some 10) (mkRat 1 2))) (some 40) (mkRat 1 2)))
    (some 20) (mkRat 1 2))) (some 30) (mkRat 1 2)

/-- A concrete group state used by witnesses: the array double aggregate
fed the rows `10, 40, 20, 30` with probabilities `[1/4, 1/2, 3/4]`. -/
def exampleArrayState : struct_double :=
  quantile_append_double_array (some (quantile_append_double_array
    (some (quantile_append_double_array (some (quantile_append_double_array none (some 10)
      [mkRat 1 4, mkRat 1 2, mkRat 3 4])) (some 40) [])) (some 20) [])) (some 30) []

/-- A concrete group state with the rows `10, 20` and requested
probability `1` (used against the `p ≥ 1` clamp claim). -/
def maxProbState : struct_double :=
  quantile_append_double (some (quantile_append_double none (some 10) 1)) (some 20) 1

/-- A concrete group state with the rows `10, 20` and probabilities
`[0, 1]` (both boundary clamps of the array variant). -/
def clampArrayState : struct_double :=
  quantile_append_double_array (some (quantile_append_double_array none (some 10) [0, 1]))
    (some 20) []

/-- A concrete int32 group state with the rows `7, 3` and requested
probability `1`. -/
def int32State : struct_int32 :=
  quantile_append_int32 (some (quantile_append_int32 none (some 7) 1)) (some 3) 1

/-- The group state created by a first append call whose observation is
NULL: the struct exists but holds zero entries. -/
def emptyCreatedState : struct_double := quantile_append_double none none (mkRat 1 2)

/-! Helper lemmas: the executable `Rat.ceil` agrees with the
mathematical ceiling, the nearest-rank index is always in range on a
non-empty buffer, and reading the sorted buffer at an in-range index
yields the corresponding entry of the sorted valid prefix. -/

lemma rat_ceil_eq_intCeil (x : ℚ) : (x.ceil : ℤ) = ⌈x⌉ := by
  by_cases h : x.den = 1
  · have hx : (x.num : ℚ) = x := Rat.coe_int_num_of_den_eq_one h
    unfold Rat.ceil
    rw [if_pos h]
    conv_rhs => rw [← hx]
    rw [Int.ceil_intCast]
  · have hfd : ⌊x⌋ = x.num / (x.den : ℤ) := Rat.floor_def
    have hne : ((⌊x⌋ : ℚ)) ≠ x := by
      intro he
      apply h
      rw [← he]
      exact Rat.den_intCast _
    have h1 : ((⌊x⌋ : ℚ)) < x := lt_of_le_of_ne (Int.floor_le x) hne
    have h2 : x < (⌊x⌋ : ℚ) + 1 := Int.lt_floor_add_one x
    unfold Rat.ceil
    rw [if_neg h, ← hfd]
    refine le_antisymm (by rw [Int.add_one_le_iff]; exact Int.lt_ceil.mpr h1) (Int.ceil_le.mpr ?_)
    push_cast
    exact h2.le

lemma ceilIdx_bounds (n : Nat) (q : ℚ) (hn : 1 ≤ n) (h0 : 0 < q) (h1 : q < 1) :
    0 ≤ ((n : ℚ) * q).ceil - 1 ∧ (((n : ℚ) * q).ceil - 1).toNat < n := by
  rw [rat_ceil_eq_intCeil]
  have hpos : (0:ℚ) < (n : ℚ) * q := by
    apply mul_pos _ h0
    exact_mod_cast Nat.lt_of_lt_of_le Nat.zero_lt_one hn
  have hc1 : 0 < ⌈(n : ℚ) * q⌉ := Int.ceil_pos.mpr hpos
  have hc2 : ⌈(n : ℚ) * q⌉ ≤ (n : ℤ) := by
    apply Int.ceil_le.mpr
    calc (n:ℚ) * q ≤ (n:ℚ) * 1 := mul_le_mul_of_nonneg_left h1.le (by positivity)
    _ = ((n:ℤ) : ℚ) := by push_cast; ring
  omega

lemma rankIdx_bounds (n : Nat) (q : ℚ) (hn : 1 ≤ n) :
    0 ≤ rankIdx n q ∧ (rankIdx n q).toNat < n := by
  unfold rankIdx
  split_ifs with hq1 hq2
  · exact ceilIdx_bounds n q hn hq1.1 hq1.2
  · refine ⟨le_refl 0, by simpa using hn⟩
  · constructor <;> omega

lemma sortedElems_length {α : Type} [LinearOrder α] (d : Struct α)
    (h : d.next ≤ d.elements.length) : (sortedElems d).length = d.next := by
  unfold sortedElems
  rw [List.length_insertionSort, List.length_take]
  omega

lemma sortBuf_length {α : Type} [LinearOrder α] (d : Struct α)
    (h : d.next ≤ d.elements.length) : (sortBuf d).length = d.elements.length := by
  unfold sortBuf
  rw [List.length_append, sortedElems_length d h, List.length_drop]
  omega

lemma bufRead_value {α : Type} [Inhabited α] (buf : List α) (idx : Int)
    (h0 : 0 ≤ idx) (hlt : idx.toNat < buf.length) :
    bufRead buf idx = .value (buf.getD idx.toNat default) := by
  unfold bufRead
  rw [if_pos ⟨h0, hlt⟩]

lemma finalize_read {α : Type} [LinearOrder α] [Inhabited α] (d : Struct α) (idx : Int)
    (hinv : Inv d) (h0 : 0 ≤ idx) (hlt : idx.toNat < d.next) :
    bufRead (sortBuf d) idx = .value ((sortedElems d).getD idx.toNat default) := by
  have hn1 : d.next ≤ d.elements.length := hinv.1
  have hl : idx.toNat < (sortedElems d).length := by
    rw [sortedElems_length d hn1]
    omega
  rw [bufRead_value _ _ h0 (by rw [sortBuf_length d hn1]; omega)]
  congr 1
  unfold sortBuf
  exact List.getD_append _ _ _ _ hl

lemma collectReads_value {α : Type} [Inhabited α] (buf : List α) (idxs : List Int)
    (h : ∀ i ∈ idxs, 0 ≤ i ∧ i.toNat < buf.length) :
    collectReads buf idxs = .value (idxs.map (fun i => buf.getD i.toNat default)) := by
  induction idxs with
  | nil => rfl
  | cons i rest ih =>
    have hi := h i (List.mem_cons_self _ _)
    rw [List.map_cons]
    unfold collectReads
    rw [bufRead_value buf i hi.1 hi.2, ih (fun j hj => h j (List.mem_cons_of_mem _ hj))]

lemma quantile_array_gen_value {α : Type} [LinearOrder α] [Inhabited α] (d : Struct α)
    (hinv : Inv d) (hn : 1 ≤ d.next) :
    quantile_array_gen (some d) =
      .value (d.quantiles.map (fun q => (sortedElems d).getD (rankIdx d.next q).toNat default)) := by
  have hn1 : d.next ≤ d.elements.length := hinv.1
  show collectReads (sortBuf d) (d.quantiles.map (rankIdx d.next)) =
    FinalizeResult.value (d.quantiles.map (fun q =>
      (sortedElems d).getD (rankIdx d.next q).toNat default))
  rw [collectReads_value _ _ (by
    intro i hi
    obtain ⟨q, hq, rfl⟩ := List.mem_map.mp hi
    have hb := rankIdx_bounds d.next q hn
    refine ⟨hb.1, ?_⟩
    rw [sortBuf_length d hn1]
    omega)]
  rw [List.map_map]
  apply congrArg
  apply List.map_congr_left
  intro q hq
  have hl : (rankIdx d.next q).toNat < (sortedElems d).length := by
    rw [sortedElems_length d hn1]
    exact (rankIdx_bounds d.next q hn).2
  simp only [Function.comp]
  unfold sortBuf
  exact List.getD_append _ _ _ _ hl

/-! Helper lemmas about the growth policy: `capAfter n` is the capacity
reached after `n` successful appends, and a run of append calls produces
exactly the canonical state. -/

lemma SLICE_SIZE_pos : 0 < SLICE_SIZE := by decide

lemma le_capAfter : ∀ n : Nat, n ≤ capAfter n
  | 0 => by simp [capAfter]
  | n + 1 => by
    have ih := le_capAfter n
    have hs := SLICE_SIZE_pos
    unfold capAfter
    split_ifs with h <;> omega

lemma slice_le_capAfter : ∀ n : Nat, SLICE_SIZE ≤ capAfter n
  | 0 => le_refl _
  | n + 1 => by
    have ih := slice_le_capAfter n
    unfold capAfter
    split_ifs with h <;> omega

lemma canonical_elements_length {α : Type} [Inhabited α] (qs : List ℚ) (vals : List α) :
    (canonical qs vals).elements.length = capAfter vals.length := by
  have := le_capAfter vals.length
  simp only [canonical, List.length_append, List.length_replicate]
  omega

lemma inv_canonical {α : Type} [Inhabited α] (qs : List ℚ) (vals : List α) :
    Inv (canonical qs vals) := by
  constructor
  · rw [canonical_elements_length]
    exact le_capAfter _
  · rw [canonical_elements_length]
    exact slice_le_capAfter _

lemma set_append_length {α : Type} (l t : List α) (v : α) :
    (l ++ t).set l.length v = l ++ t.set 0 v := by
  induction l with
  | nil => rfl
  | cons a r ih =>
    show a :: (r ++ t).set r.length v = a :: (r ++ t.set 0 v)
    rw [ih]

lemma appendElem_some {α : Type} [Inhabited α] (d : Struct α) (v : α) :
    appendElem d (some v) =
      if (d.elements.length : Int) - 1 < (d.next : Int) then
        { quantiles := d.quantiles,
          elements := (d.elements ++ List.replicate SLICE_SIZE default).set d.next v,
          next := d.next + 1 }
      else
        { quantiles := d.quantiles, elements := d.elements.set d.next v, next := d.next + 1 } := by
  unfold appendElem
  split_ifs with h <;> rfl

lemma replicate_succ_default {α : Type} [Inhabited α] (n : Nat) (h : 0 < n) :
    List.replicate n (default : α) = default :: List.replicate (n - 1) default := by
  rw [← List.replicate_succ]
  congr 1
  omega

lemma appendElem_canonical {α : Type} [Inhabited α] (qs : List ℚ) (vals : List α)
    (obs : Option α) :
    appendElem (canonical qs vals) obs = canonical qs (vals ++ obs.toList) := by
  cases obs with
  | none => simp [appendElem, Option.toList]
  | some v =>
    have hle := le_capAfter vals.length
    have hsp := SLICE_SIZE_pos
    have hlen := canonical_elements_length (α := α) qs vals
    rw [appendElem_some]
    show _ = canonical qs (vals ++ [v])
    by_cases h : capAfter vals.length ≤ vals.length
    · have he : capAfter vals.length = vals.length := le_antisymm h hle
      have hzero : capAfter vals.length - vals.length = 0 := by omega
      have hcap : capAfter (vals.length + 1) = capAfter vals.length + SLICE_SIZE := by
        show (if capAfter vals.length ≤ vals.length then capAfter vals.length + SLICE_SIZE
              else capAfter vals.length) = capAfter vals.length + SLICE_SIZE
        rw [if_pos h]
      rw [if_pos (show ((canonical (α := α) qs vals).elements.length : Int) - 1 <
            ((canonical (α := α) qs vals).next : Int) by
          rw [hlen]
          show (capAfter vals.length : Int) - 1 < (vals.length : Int)
          omega)]
      have harith : capAfter (vals.length + 1) - (vals.length + 1) = SLICE_SIZE - 1 := by
        omega
      simp only [canonical, Struct.mk.injEq, hzero, List.replicate_zero, List.append_nil,
        List.length_append, List.length_cons, List.length_nil, harith]
      refine ⟨trivial, ?_, trivial⟩
      rw [set_append_length, replicate_succ_default SLICE_SIZE hsp]
      show vals ++ v :: List.replicate (SLICE_SIZE - 1) default = _
      rw [List.append_assoc]
      rfl
    · have hlt : vals.length < capAfter vals.length := by omega
      have hcap : capAfter (vals.length + 1) = capAfter vals.length := by
        show (if capAfter vals.length ≤ vals.length then capAfter vals.length + SLICE_SIZE
              else capAfter vals.length) = capAfter vals.length
        rw [if_neg h]
      rw [if_neg (show ¬ (((canonical (α := α) qs vals).elements.length : Int) - 1 <
            ((canonical (α := α) qs vals).next : Int)) by
          rw [hlen]
          show ¬ ((capAfter vals.length : Int) - 1 < (vals.length : Int))
          omega)]
      have harith : capAfter (vals.length + 1) - (vals.length + 1) =
          capAfter vals.length - vals.length - 1 := by omega
      simp only [canonical, Struct.mk.injEq, List.length_append, List.length_cons,
        List.length_nil, harith]
      refine ⟨trivial, ?_, trivial⟩
      rw [set_append_length, replicate_succ_default (capAfter vals.length - vals.length)
        (by omega)]
      show vals ++ v :: List.replicate (capAfter vals.length - vals.length - 1) default = _
      rw [List.append_assoc]
      rfl

lemma freshState_eq_canonical {α : Type} [Inhabited α] (qs : List ℚ) :
    freshState (α := α) qs = canonical qs [] := rfl

lemma foldl_step_canonical (qs : List ℚ)
    (step : Option struct_double → Option ℚ → Option struct_double)
    (hstep : ∀ s o, step s o = some (appendElem (s.getD (freshState qs)) o))
    (obs : List (Option ℚ)) :
    ∀ vals : List ℚ, obs.foldl step (some (canonical qs vals)) =
      some (canonical qs (vals ++ obs.reduceOption)) := by
  induction obs with
  | nil =>
    intro vals
    simp
  | cons o rest ih =>
    intro vals
    show rest.foldl step (step (some (canonical qs vals)) o) = _
    rw [hstep, Option.getD_some, appendElem_canonical, ih]
    congr 1
    rw [List.append_assoc]
    congr 1
    cases o
    · simp [Option.toList, List.reduceOption_cons_of_none]
    · simp [Option.toList, List.reduceOption_cons_of_some]

lemma runAppends_nil (q : ℚ) : runAppends [] q = none := rfl

lemma runAppends_eq (obs : List (Option ℚ)) (q : ℚ) (h : obs ≠ []) :
    runAppends obs q = some (canonical [q] obs.reduceOption) := by
  have hstep : ∀ s o, stepDouble q s o = some (appendElem (s.getD (freshState [q])) o) :=
    fun s o => rfl
  cases obs with
  | nil => exact absurd rfl h
  | cons o rest =>
    show rest.foldl (stepDouble q) (stepDouble q none o) = _
    rw [hstep, Option.getD_none, freshState_eq_canonical, appendElem_canonical,
      foldl_step_canonical [q] (stepDouble q) hstep rest]
    congr 1
    cases o
    · simp [Option.toList, List.reduceOption_cons_of_none]
    · simp [Option.toList, List.reduceOption_cons_of_some]

lemma runAppendsArray_eq (obs : List (Option ℚ)) (qs : List ℚ) (h : obs ≠ []) :
    runAppendsArray obs qs = some (canonical qs obs.reduceOption) := by
  have hstep : ∀ s o, stepDoubleArray qs s o = some (appendElem (s.getD (freshState qs)) o) :=
    fun s o => rfl
  cases obs with
  | nil => exact absurd rfl h
  | cons o rest =>
    show rest.foldl (stepDoubleArray qs) (stepDoubleArray qs none o) = _
    rw [hstep, Option.getD_none, freshState_eq_canonical, appendElem_canonical,
      foldl_step_canonical qs (stepDoubleArray qs) hstep rest]
    congr 1
    cases o
    · simp [Option.toList, List.reduceOption_cons_of_none]
    · simp [Option.toList, List.reduceOption_cons_of_some]

lemma sort_perm_eq {α : Type} [LinearOrder α] (l1 l2 : List α) (h : l1.Perm l2) :
    l1.insertionSort (· ≤ ·) = l2.insertionSort (· ≤ ·) :=
  List.eq_of_perm_of_sorted
    ((List.perm_insertionSort _ _).trans (h.trans (List.perm_insertionSort _ _).symm))
    (List.sorted_insertionSort _ _) (List.sorted_insertionSort _ _)

lemma sortedElems_canonical {α : Type} [LinearOrder α] [Inhabited α] (qs : List ℚ)
    (vals : List α) :
    sortedElems (canonical qs vals) = vals.insertionSort (· ≤ ·) := by
  unfold sortedElems
  congr 1
  show (vals ++ List.replicate (capAfter vals.length - vals.length) default).take vals.length =
    vals
  exact List.take_left _ _

lemma dropElems_canonical {α : Type} [Inhabited α] (qs : List ℚ) (vals : List α) :
    (canonical qs vals).elements.drop (canonical qs vals).next =
      List.replicate (capAfter vals.length - vals.length) default := by
  show (vals ++ List.replicate (capAfter vals.length - vals.length) default).drop vals.length = _
  exact List.drop_left _ _

lemma sortBuf_canonical_perm {α : Type} [LinearOrder α] [Inhabited α] (qs : List ℚ)
    (v1 v2 : List α) (hp : v1.Perm v2) :
    sortBuf (canonical qs v1) = sortBuf (canonical qs v2) := by
  have hl : v1.length = v2.length := hp.length_eq
  unfold sortBuf
  rw [sortedElems_canonical, sortedElems_canonical, dropElems_canonical, dropElems_canonical,
    sort_perm_eq v1 v2 hp, hl]

lemma finalize_congr (d e : struct_double) (hq : d.quantiles = e.quantiles)
    (hn : d.next = e.next) (hb : sortBuf d = sortBuf e) :
    quantile_double (some d) = quantile_double (some e) ∧
      quantile_double_array (some d) = quantile_double_array (some e) := by
  constructor
  · show bufRead (sortBuf d)
        (if 0 < d.quantiles.getD 0 0 ∧ d.quantiles.getD 0 0 < 1 then
          ((d.next : ℚ) * d.quantiles.getD 0 0).ceil - 1 else 0) =
      bufRead (sortBuf e)
        (if 0 < e.quantiles.getD 0 0 ∧ e.quantiles.getD 0 0 < 1 then
          ((e.next : ℚ) * e.quantiles.getD 0 0).ceil - 1 else 0)
    rw [hq, hn, hb]
  · show collectReads (sortBuf d) (d.quantiles.map (rankIdx d.next)) =
      collectReads (sortBuf e) (e.quantiles.map (rankIdx e.next))
    rw [hq, hn, hb]

lemma take_set {α : Type} : ∀ (l : List α) (n : Nat) (v : α), (l.set n v).take n = l.take n
  | [], _, _ => rfl
  | _ :: _, 0, _ => rfl
  | a :: t, n + 1, v => by
    show a :: (t.set n v).take n = a :: t.take n
    rw [take_set t n v]

lemma getD_set_self {α : Type} (l : List α) (n : Nat) (v d : α) (h : n < l.length) :
    (l.set n v).getD n d = v := by
  rw [List.getD_eq_getElem?_getD, List.getElem?_set_self (by omega), Option.getD_some]

lemma appendElem_quantiles {α : Type} [Inhabited α] (d : Struct α) (obs : Option α) :
    (appendElem d obs).quantiles = d.quantiles := by
  cases obs with
  | none => rfl
  | some v =>
    rw [appendElem_some]
    split_ifs <;> rfl

/-- Claim C1: for every non-empty well-formed accumulator and every
probability `p` with `0 < p < 1`, both the scalar and the array double
finalize return the element at zero-based index `⌈n * p⌉ - 1` of the
accumulated values sorted ascending (`n` the accumulated count). -/
theorem C1_nearest_rank (d : struct_double) (hinv : Inv d) (hn : 1 ≤ d.next) :
    (∀ q, d.quantiles.getD 0 0 = q → 0 < q → q < 1 →
       quantile_double (some d) =
         .value ((sortedElems d).getD (⌈(d.next : ℚ) * q⌉ - 1).toNat 0)) ∧
    ((∀ q ∈ d.quantiles, 0 < q ∧ q < 1) →
       quantile_double_array (some d) =
         .value (d.quantiles.map (fun q =>
           (sortedElems d).getD (⌈(d.next : ℚ) * q⌉ - 1).toNat 0))) := by
  constructor
  · intro q hq h0 h1
    show bufRead (sortBuf d)
        (if 0 < d.quantiles.getD 0 0 ∧ d.quantiles.getD 0 0 < 1 then
          ((d.next : ℚ) * d.quantiles.getD 0 0).ceil - 1 else 0) = _
    rw [hq, if_pos ⟨h0, h1⟩, ← rat_ceil_eq_intCeil]
    have hb := ceilIdx_bounds d.next q hn h0 h1
    exact finalize_read d _ hinv hb.1 hb.2
  · intro hall
    show quantile_array_gen (some d) = _
    rw [quantile_array_gen_value d hinv hn]
    congr 1
    apply List.map_congr_left
    intro q hq
    have hr : rankIdx d.next q = ⌈(d.next : ℚ) * q⌉ - 1 := by
      unfold rankIdx
      rw [if_pos ⟨(hall q hq).1, (hall q hq).2⟩, rat_ceil_eq_intCeil]
    rw [hr]
    rfl

unseal Rat.mul in
/-- Witness for C1: on values `10, 40, 20, 30` with `p = 1/2` the scalar
finalize returns the nearest-rank element, concretely `20`. -/
theorem C1_nearest_rank_witness :
    Inv exampleState ∧ 1 ≤ exampleState.next ∧
    quantile_double (some exampleState) =
      .value ((sortedElems exampleState).getD
        (⌈(exampleState.next : ℚ) * mkRat 1 2⌉ - 1).toNat 0) ∧
    quantile_double (some exampleState) = .value 20 :=
  ⟨by decide, by decide,
   (C1_nearest_rank exampleState (by decide) (by decide)).1 (mkRat 1 2) (by decide) (by decide)
     (by decide),
   by decide⟩

/-- Counterexample to claim C2 as stated: the scalar double finalize on
the non-empty accumulator `{10, 20}` with probability `1` returns `10`
(the sorted element at index `0`, the minimum), not the maximum at
sorted index `count - 1`. -/
theorem C2_counterexample :
    maxProbState.next = 2 ∧ maxProbState.quantiles = [1] ∧
    sortedElems maxProbState = [10, 20] ∧
    quantile_double (some maxProbState) = .value 10 ∧
    quantile_double (some maxProbState) ≠
      .value ((sortedElems maxProbState).getD (maxProbState.next - 1) 0) :=
  ⟨by decide, by decide, by decide, by decide, by decide⟩

/-- Claim C2 as amended: on a non-empty accumulator the array finalize
clamps `p ≤ 0` to the minimum (sorted index `0`) and `p ≥ 1` to the
maximum (sorted index `count - 1`); the scalar variants clamp `p ≤ 0`
to the minimum, but for `p ≥ 1` the scalar double variant yields the
minimum (index `0`), and the scalar int32 variant yields the maximum
only at `p = 1` exactly. -/
theorem C2_boundary_clamps (d : struct_double) (e : struct_int32) (hd : Inv d) (he : Inv e)
    (hnd : 1 ≤ d.next) (hne : 1 ≤ e.next) :
    (quantile_double_array (some d) =
        .value (d.quantiles.map (fun q => (sortedElems d).getD (rankIdx d.next q).toNat 0)) ∧
      (∀ q ∈ d.quantiles,
        (q ≤ 0 → (sortedElems d).getD (rankIdx d.next q).toNat 0 = (sortedElems d).getD 0 0) ∧
        (1 ≤ q → (sortedElems d).getD (rankIdx d.next q).toNat 0 =
          (sortedElems d).getD (d.next - 1) 0))) ∧
    (d.quantiles.getD 0 0 ≤ 0 →
      quantile_double (some d) = .value ((sortedElems d).getD 0 0)) ∧
    (1 ≤ d.quantiles.getD 0 0 →
      quantile_double (some d) = .value ((sortedElems d).getD 0 0)) ∧
    (e.quantiles.getD 0 0 ≤ 0 →
      quantile_int32 (some e) = .value ((sortedElems e).getD 0 0)) ∧
    (e.quantiles.getD 0 0 = 1 →
      quantile_int32 (some e) = .value ((sortedElems e).getD (e.next - 1) 0)) := by
  refine ⟨⟨?_, ?_⟩, ?_, ?_, ?_, ?_⟩
  · show quantile_array_gen (some d) = _
    exact quantile_array_gen_value d hd hnd
  · intro q hq
    constructor
    · intro hq0
      have hr : rankIdx d.next q = 0 := by
        unfold rankIdx
        rw [if_neg (fun hc => absurd hc.1 (not_lt.mpr hq0)), if_pos hq0]
      rw [hr]
      rfl
    · intro hq1
      have hr : rankIdx d.next q = (d.next : Int) - 1 := by
        unfold rankIdx
        rw [if_neg (fun hc => absurd hc.2 (not_lt.mpr hq1)),
          if_neg (not_le.mpr (lt_of_lt_of_le one_pos hq1))]
      rw [hr]
      congr 1
      omega
  · intro hq0
    show bufRead (sortBuf d)
        (if 0 < d.quantiles.getD 0 0 ∧ d.quantiles.getD 0 0 < 1 then
          ((d.next : ℚ) * d.quantiles.getD 0 0).ceil - 1 else 0) = _
    rw [if_neg (fun hc => absurd hc.1 (not_lt.mpr hq0))]
    exact finalize_read d 0 hd (le_refl 0) (by omega)
  · intro hq1
    show bufRead (sortBuf d)
        (if 0 < d.quantiles.getD 0 0 ∧ d.quantiles.getD 0 0 < 1 then
          ((d.next : ℚ) * d.quantiles.getD 0 0).ceil - 1 else 0) = _
    rw [if_neg (fun hc => absurd hc.2 (not_lt.mpr hq1))]
    exact finalize_read d 0 hd (le_refl 0) (by omega)
  · intro hq0
    show bufRead (sortBuf e)
        (if 0 < e.quantiles.getD 0 0 then ((e.next : ℚ) * e.quantiles.getD 0 0).ceil - 1
         else 0) = _
    rw [if_neg (not_lt.mpr hq0)]
    exact finalize_read e 0 he (le_refl 0) (by omega)
  · intro hq1
    show bufRead (sortBuf e)
        (if 0 < e.quantiles.getD 0 0 then ((e.next : ℚ) * e.quantiles.getD 0 0).ceil - 1
         else 0) = _
    rw [hq1, if_pos one_pos, mul_one]
    have hc : ((e.next : ℚ)).ceil = (e.next : Int) := by
      rw [rat_ceil_eq_intCeil]
      exact Int.ceil_natCast _
    rw [hc]
    have hb : ((e.next : Int) - 1).toNat = e.next - 1 := by omega
    have hr := finalize_read e ((e.next : Int) - 1) he (by omega) (by omega)
    rw [hr, hb]
    rfl

unseal Rat.mul in
/-- Witness for the amended C2: on values `10, 20` with probabilities
`[0, 1]` the array finalize returns `[10, 20]` (min then max), and the
scalar int32 finalize at `p = 1` on values `7, 3` returns the maximum
`7`. -/
theorem C2_boundary_clamps_witness :
    Inv clampArrayState ∧ Inv int32State ∧
    quantile_double_array (some clampArrayState) = .value [10, 20] ∧
    ((clampArrayState.quantiles.getD 0 0 ≤ 0 →
      quantile_double (some clampArrayState) =
        .value ((sortedElems clampArrayState).getD 0 0)) ∧
     (int32State.quantiles.getD 0 0 = 1 →
      quantile_int32 (some int32State) =
        .value ((sortedElems int32State).getD (int32State.next - 1) 0))) ∧
    quantile_int32 (some int32State) = .value 7 := by
  refine ⟨by decide, by decide, by decide,
    ⟨((C2_boundary_clamps clampArrayState int32State (by decide) (by decide) (by decide)
        (by decide)).2.1),
     ((C2_boundary_clamps clampArrayState int32State (by decide) (by decide) (by decide)
        (by decide)).2.2.2.2)⟩,
    by decide⟩

unseal Rat.mul in
/-- Claim C3, evaluated on the code: a never-created group state (NULL)
makes finalize report no result, but a created state holding zero
entries makes the scalar double finalize compute the index
`ceil(0 * 1/2) - 1 = -1` and read `elements[-1]` out of bounds — the
code does not realise the claimed "no result" behaviour in this case. -/
theorem C3_empty_finalize :
    quantile_double none = FinalizeResult.noResult ∧
    quantile_double_array none = FinalizeResult.noResult ∧
    emptyCreatedState.next = 0 ∧
    quantile_double (some emptyCreatedState) = .oobAccess (-1) :=
  ⟨rfl, rfl, by decide, by decide⟩

/-- Claim C4: after any sequence of append calls for one group, the
accumulator holds exactly the non-missing observations in delivery
order and the count equals their number; NULL observations are never
written, and growth across slab boundaries loses no value. -/
theorem C4_append_accumulates (obs : List (Option ℚ)) (q : ℚ) (d : struct_double)
    (h : runAppends obs q = some d) :
    d.next = obs.reduceOption.length ∧
    d.elements.take d.next = obs.reduceOption ∧
    d.quantiles = [q] ∧ Inv d := by
  cases obs with
  | nil =>
    rw [runAppends_nil] at h
    cases h
  | cons o rest =>
    rw [runAppends_eq (o :: rest) q (by simp)] at h
    cases h
    refine ⟨rfl, ?_, rfl, inv_canonical _ _⟩
    show ((o :: rest).reduceOption ++
        List.replicate (capAfter (o :: rest).reduceOption.length -
          (o :: rest).reduceOption.length) default).take (o :: rest).reduceOption.length = _
    exact List.take_left _ _

/-- Witness for C4: appending `[3, missing, 1, missing, 2]` yields the
accumulated sequence `[3, 1, 2]` with count `3`. -/
theorem C4_append_accumulates_witness :
    (canonical [mkRat 1 2] [3, 1, 2]).next =
      [some (3:ℚ), none, some 1, none, some 2].reduceOption.length ∧
    (canonical [mkRat 1 2] ([3, 1, 2] : List ℚ)).elements.take
        (canonical [mkRat 1 2] ([3, 1, 2] : List ℚ)).next =
      [some (3:ℚ), none, some 1, none, some 2].reduceOption ∧
    (canonical [mkRat 1 2] ([3, 1, 2] : List ℚ)).quantiles = [mkRat 1 2] ∧
    Inv (canonical [mkRat 1 2] ([3, 1, 2] : List ℚ)) :=
  C4_append_accumulates [some 3, none, some 1, none, some 2] (mkRat 1 2)
    (canonical [mkRat 1 2] [3, 1, 2]) (by decide)

/-- Claim C5: with `k` stored probabilities, the array double finalize
on a non-empty accumulator returns exactly `k` values, positionally
aligned with the request order, the `i`-th being the element selected
by the nearest-rank rule (`rankIdx`, including boundary clamps) for the
`i`-th probability applied independently to the sorted sequence. -/
theorem C5_multi_alignment (d : struct_double) (hinv : Inv d) (hn : 1 ≤ d.next) :
    quantile_double_array (some d) =
      .value (d.quantiles.map (fun q => (sortedElems d).getD (rankIdx d.next q).toNat 0)) ∧
    (d.quantiles.map (fun q => (sortedElems d).getD (rankIdx d.next q).toNat 0)).length =
      d.quantiles.length := by
  constructor
  · show quantile_array_gen (some d) = _
    exact quantile_array_gen_value d hinv hn
  · exact List.length_map _ _

unseal Rat.mul in
/-- Witness for C5: probabilities `[1/4, 1/2, 3/4]` over the values
`{10, 20, 30, 40}` return exactly `[10, 20, 30]` in request order. -/
theorem C5_multi_alignment_witness :
    Inv exampleArrayState ∧ 1 ≤ exampleArrayState.next ∧
    quantile_double_array (some exampleArrayState) =
      .value (exampleArrayState.quantiles.map (fun q =>
        (sortedElems exampleArrayState).getD (rankIdx exampleArrayState.next q).toNat 0)) ∧
    quantile_double_array (some exampleArrayState) = .value [10, 20, 30] :=
  ⟨by decide, by decide,
   (C5_multi_alignment exampleArrayState (by decide) (by decide)).1, by decide⟩

/-- Claim C6: the finalize result depends only on the multiset of
accumulated values (and the request): any two delivery orders of the
same rows produce identical scalar and array results. -/
theorem C6_order_insensitive (obs1 obs2 : List (Option ℚ)) (q : ℚ) (qs : List ℚ)
    (hp : obs1.Perm obs2) :
    quantile_double (runAppends obs1 q) = quantile_double (runAppends obs2 q) ∧
    quantile_double_array (runAppendsArray obs1 qs) =
      quantile_double_array (runAppendsArray obs2 qs) := by
  by_cases h1 : obs1 = []
  · subst h1
    have h2 : obs2 = [] := hp.symm.eq_nil
    subst h2
    exact ⟨rfl, rfl⟩
  · have h2 : obs2 ≠ [] := by
      intro he
      subst he
      exact h1 hp.eq_nil
    have hv : obs1.reduceOption.Perm obs2.reduceOption := hp.filterMap id
    rw [runAppends_eq obs1 q h1, runAppends_eq obs2 q h2, runAppendsArray_eq obs1 qs h1,
      runAppendsArray_eq obs2 qs h2]
    have hlen : obs1.reduceOption.length = obs2.reduceOption.length := hv.length_eq
    exact ⟨(finalize_congr (canonical [q] obs1.reduceOption) (canonical [q] obs2.reduceOption)
        rfl (by show obs1.reduceOption.length = obs2.reduceOption.length; exact hlen)
        (sortBuf_canonical_perm [q] _ _ hv)).1,
      (finalize_congr (canonical qs obs1.reduceOption) (canonical qs obs2.reduceOption)
        rfl (by show obs1.reduceOption.length = obs2.reduceOption.length; exact hlen)
        (sortBuf_canonical_perm qs _ _ hv)).2⟩

unseal Rat.mul in
/-- Witness for C6: the arrival orders `[3, missing, 1]` and
`[missing, 1, 3]` give identical finalize results, concretely `1` at
`p = 1/2`. -/
theorem C6_order_insensitive_witness :
    ([some (3:ℚ), none, some 1] : List (Option ℚ)).Perm [none, some 1, some 3] ∧
    quantile_double (runAppends [some 3, none, some 1] (mkRat 1 2)) =
      quantile_double (runAppends [none, some 1, some 3] (mkRat 1 2)) ∧
    quantile_double_array (runAppendsArray [some 3, none, some 1] [mkRat 1 2]) =
      quantile_double_array (runAppendsArray [none, some 1, some 3] [mkRat 1 2]) ∧
    quantile_double (runAppends [some 3, none, some 1] (mkRat 1 2)) = .value 1 :=
  ⟨by decide,
   (C6_order_insensitive [some 3, none, some 1] [none, some 1, some 3] (mkRat 1 2) [mkRat 1 2]
     (by decide)).1,
   (C6_order_insensitive [some 3, none, some 1] [none, some 1, some 3] (mkRat 1 2) [mkRat 1 2]
     (by decide)).2,
   by decide⟩

/-- Claim C7: an append call on a well-formed state preserves the
invariants (`count ≤ capacity`, capacity at least one slab), never
shrinks the capacity, and on a non-NULL observation: if the buffer was
full it grows by exactly one `SLICE_SIZE` slab (otherwise the capacity
is unchanged), the value is written at position `count`, the count is
incremented, and all previously stored entries are preserved. -/
theorem C7_append_invariants (d : struct_double) (obs : Option ℚ) (q : ℚ) (hinv : Inv d) :
    Inv (quantile_append_double (some d) obs q) ∧
    d.elements.length ≤ (quantile_append_double (some d) obs q).elements.length ∧
    (∀ v, obs = some v →
      (d.next = d.elements.length →
        (quantile_append_double (some d) obs q).elements.length =
          d.elements.length + SLICE_SIZE) ∧
      (d.next < d.elements.length →
        (quantile_append_double (some d) obs q).elements.length = d.elements.length) ∧
      (quantile_append_double (some d) obs q).next = d.next + 1 ∧
      (quantile_append_double (some d) obs q).elements.getD d.next 0 = v ∧
      (quantile_append_double (some d) obs q).elements.take d.next =
        d.elements.take d.next) := by
  have h1 := hinv.1
  have h2 := hinv.2
  have hsp := SLICE_SIZE_pos
  have key : quantile_append_double (some d) obs q = appendElem d obs := rfl
  rw [key]
  cases obs with
  | none =>
    refine ⟨hinv, le_refl _, fun v hv => by cases hv⟩
  | some w =>
    rw [appendElem_some]
    by_cases hfull : (d.elements.length : Int) - 1 < (d.next : Int)
    · have heq : d.next = d.elements.length := by omega
      rw [if_pos hfull]
      have hlen : ((d.elements ++ List.replicate SLICE_SIZE (default : ℚ)).set d.next w).length =
          d.elements.length + SLICE_SIZE := by
        rw [List.length_set, List.length_append, List.length_replicate]
      refine ⟨⟨?_, ?_⟩, ?_, fun v hv => ?_⟩
      · show d.next + 1 ≤ _
        rw [hlen]
        omega
      · show SLICE_SIZE ≤ _
        rw [hlen]
        omega
      · show d.elements.length ≤ _
        rw [hlen]
        omega
      · cases hv
        refine ⟨fun _ => hlen, fun hlt => by omega, rfl, ?_, ?_⟩
        · apply getD_set_self
          rw [List.length_append, List.length_replicate]
          omega
        · show ((d.elements ++ List.replicate SLICE_SIZE default).set d.next w).take d.next = _
          rw [take_set]
          exact List.take_append_of_le_length h1
    · have hlt : d.next < d.elements.length := by omega
      rw [if_neg hfull]
      have hlen : ((d.elements.set d.next w)).length = d.elements.length := List.length_set _ _ _
      refine ⟨⟨?_, ?_⟩, ?_, fun v hv => ?_⟩
      · show d.next + 1 ≤ _
        rw [hlen]
        omega
      · show SLICE_SIZE ≤ _
        rw [hlen]
        omega
      · show d.elements.length ≤ _
        rw [hlen]
      · cases hv
        refine ⟨fun he => by omega, fun _ => hlen, rfl, ?_, ?_⟩
        · exact getD_set_self _ _ _ _ hlt
        · exact take_set _ _ _

/-- Witness for C7: appending `5` to the four-element example state
keeps the invariants, increments the count and stores `5` at the old
count position. -/
theorem C7_append_invariants_witness :
    Inv exampleState ∧
    Inv (quantile_append_double (some exampleState) (some 5) (mkRat 1 2)) ∧
    (quantile_append_double (some exampleState) (some 5) (mkRat 1 2)).next =
      exampleState.next + 1 ∧
    (quantile_append_double (some exampleState) (some 5) (mkRat 1 2)).elements.getD
      exampleState.next 0 = 5 :=
  ⟨by decide,
   (C7_append_invariants exampleState (some 5) (mkRat 1 2) (by decide)).1,
   ((C7_append_invariants exampleState (some 5) (mkRat 1 2) (by decide)).2.2 5 rfl).2.2.1,
   ((C7_append_invariants exampleState (some 5) (mkRat 1 2) (by decide)).2.2 5 rfl).2.2.2.1⟩

/-- Claim C8: an append call that receives an existing group state never
touches the stored probability list, and its result does not depend on
the request argument supplied with the call (scalar and array variants
agree with each other as well, since the argument is only read at
creation). -/
theorem C8_request_ignored_after_creation (d : struct_double) (obs : Option ℚ)
    (q q2 : ℚ) (qs qs2 : List ℚ) :
    (quantile_append_double (some d) obs q).quantiles = d.quantiles ∧
    (quantile_append_double_array (some d) obs qs).quantiles = d.quantiles ∧
    quantile_append_double (some d) obs q = quantile_append_double (some d) obs q2 ∧
    quantile_append_double_array (some d) obs qs =
      quantile_append_double_array (some d) obs qs2 ∧
    quantile_append_double (some d) obs q = quantile_append_double_array (some d) obs qs := by
  refine ⟨?_, ?_, rfl, rfl, rfl⟩
  · show (appendElem d obs).quantiles = d.quantiles
    exact appendElem_quantiles d obs
  · show (appendElem d obs).quantiles = d.quantiles
    exact appendElem_quantiles d obs

/-- Counterexample to claim C9 as stated: a two-dimensional
probabilities array supplied on an append call whose group state
already exists does not raise any error — the call succeeds, because
the request argument is only parsed on the creating call. -/
theorem C9_counterexample :
    (⟨2, [mkRat 1 2]⟩ : ArrayInput).ndims ≠ 1 ∧
    quantile_append_double_array_checked true (some (freshState [mkRat 1 2])) (some 3)
        ⟨2, [mkRat 1 2]⟩ =
      CallResult.ok (appendElem (freshState [mkRat 1 2]) (some 3)) :=
  ⟨by decide, rfl⟩

/-- Claim C9 as amended: calling append or finalize outside a valid
aggregate call context is an immediate fatal error, and a
non-single-dimensional probabilities array on the state-creating call
is an immediate fatal error before any group state is created; on calls
with an existing state the probabilities argument is not examined. -/
theorem C9_contract_errors (state : Option struct_double) (obs : Option ℚ) (q : ℚ)
    (v : ArrayInput) :
    quantile_append_double_checked false state obs q =
      .fatal "quantile_append_double called in non-aggregate context" ∧
    quantile_append_double_array_checked false state obs v =
      .fatal "quantile_append_double_array called in non-aggregate context" ∧
    quantile_double_checked false state =
      .fatal "quantile_double called in non-aggregate context" ∧
    quantile_double_array_checked false state =
      .fatal "quantile_double_array called in non-aggregate context" ∧
    (v.ndims ≠ 1 → quantile_append_double_array_checked true none obs v =
      .fatal "error, array_to_double expects a single-dimensional array") := by
  refine ⟨rfl, rfl, rfl, rfl, ?_⟩
  intro hnd
  show (match array_to_double v with
        | .error msg => CallResult.fatal msg
        | .ok qs => CallResult.ok (appendElem (freshState qs) obs)) = _
  unfold array_to_double
  rw [if_pos hnd]

/-- Witness for the amended C9: concrete fatal results outside the
aggregate context and for a 2-dimensional probabilities array on the
creating call. -/
theorem C9_contract_errors_witness :
    (⟨2, []⟩ : ArrayInput).ndims ≠ 1 ∧
    quantile_append_double_checked false none (some 3) (mkRat 1 2) =
      .fatal "quantile_append_double called in non-aggregate context" ∧
    quantile_double_checked false none =
      .fatal "quantile_double called in non-aggregate context" ∧
    quantile_append_double_array_checked true none (some 3) ⟨2, []⟩ =
      .fatal "error, array_to_double expects a single-dimensional array" :=
  ⟨by decide,
   (C9_contract_errors none (some 3) (mkRat 1 2) ⟨2, []⟩).1,
   (C9_contract_errors none (some 3) (mkRat 1 2) ⟨2, []⟩).2.2.1,
   (C9_contract_errors none (some 3) (mkRat 1 2) ⟨2, []⟩).2.2.2.2 (by decide)⟩

/-- Claim C10: creating a group with a zero-element single-dimensional
probabilities array succeeds (no error), stores an empty probability
list, and the array finalize then emits zero ranked values. -/
theorem C10_empty_request (obs : Option ℚ) :
    array_to_double ⟨1, []⟩ = .ok [] ∧
    quantile_append_double_array_checked true none obs ⟨1, []⟩ =
      .ok (appendElem (freshState []) obs) ∧
    (appendElem (freshState []) obs).quantiles = [] ∧
    quantile_double_array (some (appendElem (freshState []) obs)) = .value [] := by
  have hq : (appendElem (freshState (α := ℚ) []) obs).quantiles = [] :=
    appendElem_quantiles _ _
  refine ⟨rfl, rfl, hq, ?_⟩
  show collectReads (sortBuf (appendElem (freshState []) obs))
      ((appendElem (freshState (α := ℚ) []) obs).quantiles.map
        (rankIdx (appendElem (freshState (α := ℚ) []) obs).next)) = .value []
  rw [hq]
  rfl

end Quantile
